import Mathlib

/-!
Verification development for the ScholarAI community-project repository.

The repository contains independent research-assistant submissions.  Two of
them carry the logic under verification here:

* `beginner/submissions/team-members/ScholarAI5.py` — the source-curation
  helpers `normalize_text`, `_domain`, `_score_item` and `curate_sources`.
* `advanced/submissions/team-members/art-turner-ag/` — the
  `TopicSplitterAgent`, `ResearcherAgent`, `SynthesizerAgent` and the
  orchestrating `ResearchWorkflow`.

Python strings are modelled as `List Char` (named `PyStr`) wherever the code
inspects their characters, and as Lean `String` where only concatenation and
equality occur.  Python floats that the code produces (`0.5`, scores, progress
fractions) are modelled as `ℚ`; every concrete value involved (halves, small
naturals) is exactly representable, so no rounding behaviour is lost.
External capabilities (the OpenAI chat client, the Tavily / SerpAPI search
clients, `json.loads`) are modelled as explicit function parameters or as
already-parsed values, following the repository boundary: the code under
verification is what happens around those calls.
-/

namespace Scholar

/-- Python strings viewed as character lists. -/
abbrev PyStr := List Char

/-- Model of the characters matched by the regex class backslash-s of
`re.sub` in `normalize_text` (ASCII whitespace). -/
def isSpaceB (c : Char) : Bool :=
  c == ' ' || c == '\t' || c == '\n' || c == '\r' || c == '\x0b' || c == '\x0c'

/-- Model of Python `str.lower` (ASCII range, which covers every input the
claims exercise). -/
def pyLower (s : PyStr) : PyStr := s.map Char.toLower

/-- Model of `re.sub(r"\s+", " ", s)`: every maximal whitespace run becomes a
single space. -/
def collapseWS : PyStr → PyStr
  | [] => []
  | [c] => if isSpaceB c then [' '] else [c]
  | c1 :: c2 :: rest =>
    if isSpaceB c1 && isSpaceB c2 then collapseWS (c2 :: rest)
    else (if isSpaceB c1 then ' ' else c1) :: collapseWS (c2 :: rest)

/-- Model of Python `str.strip()`: drop leading and trailing whitespace. -/
def pyStrip (s : PyStr) : PyStr :=
  (((s.dropWhile isSpaceB).reverse).dropWhile isSpaceB).reverse

/-- Embedding of `normalize_text` from `ScholarAI5.py`:
`re.sub(r"\s+", " ", s.lower()).strip()`. -/
def normalize_text (s : PyStr) : PyStr := pyStrip (collapseWS (pyLower s))

/-- Helper for `pyWords`: accumulates the current word reversed. -/
def pyWordsAux : PyStr → PyStr → List PyStr
  | [], acc => if acc.isEmpty then [] else [acc.reverse]
  | c :: rest, acc =>
    if isSpaceB c then
      if acc.isEmpty then pyWordsAux rest [] else acc.reverse :: pyWordsAux rest []
    else pyWordsAux rest (c :: acc)

/-- Model of Python `str.split()` with no argument: split on whitespace runs,
discarding empty words. -/
def pyWords (s : PyStr) : List PyStr := pyWordsAux s []

/-- Model of the Python substring operator `needle in hay` on strings: true
when `needle` occurs contiguously inside `hay`. -/
def pyIn (needle : PyStr) : PyStr → Bool
  | [] => needle.isEmpty
  | c :: rest => needle.isPrefixOf (c :: rest) || pyIn needle rest

/-- Model of Python `s.replace("www.", "")`: remove every occurrence of the
four-character pattern, scanning left to right without overlap and without
rescanning replaced positions. -/
def pyReplaceWWW : PyStr → PyStr
  | 'w' :: 'w' :: 'w' :: '.' :: rest => pyReplaceWWW rest
  | c :: rest => c :: pyReplaceWWW rest
  | [] => []

/-- Characters allowed in a URL scheme by `urllib.parse` (letters, digits,
plus, minus, dot). -/
def isSchemeChar (c : Char) : Bool :=
  c.isAlphanum || c == '+' || c == '-' || c == '.'

/-- A valid scheme is nonempty, starts with a letter and uses scheme
characters only, following `urllib.parse.urlsplit`. -/
def validScheme : PyStr → Bool
  | [] => false
  | c :: rest => c.isAlpha && rest.all isSchemeChar

/-- Model of the scheme-stripping step of `urllib.parse.urlsplit`: when the
text before the first colon is a valid scheme, drop it together with the
colon. -/
def splitScheme (u : PyStr) : PyStr :=
  let pre := u.takeWhile (fun c => c != ':')
  if pre.length < u.length ∧ validScheme pre then u.drop (pre.length + 1) else u

/-- Model of `urlparse(u).netloc`: after scheme stripping, the network
location is present exactly when the remainder starts with two slashes, and
extends to the next slash, question mark or hash. -/
def extractNetloc (u : PyStr) : PyStr :=
  match splitScheme u with
  | '/' :: '/' :: rest => rest.takeWhile (fun c => !(c == '/' || c == '?' || c == '#'))
  | _ => []

/-- Embedding of `_domain` from `ScholarAI5.py`:
`urlparse(u).netloc.lower().replace("www.", "")` (the defensive
`except`-branch that returns `u` is unreachable for the string inputs
modelled here, since `urlparse` does not raise on them). -/
def _domain (u : PyStr) : PyStr := pyReplaceWWW (pyLower (extractNetloc u))

/-- Embedding of `_score_item` from `ScholarAI5.py`.  The token set built by
`set(normalize_text(query).split())` is modelled by `List.dedup`; iterating a
set and counting matches is the length of the filtered token list.  The float
`0.5` is the rational one half. -/
def _score_item (query title snippet url : PyStr) : ℚ :=
  let q_tokens := (pyWords (normalize_text query)).dedup
  let text := normalize_text (title ++ ' ' :: snippet)
  let hits : ℕ := (q_tokens.filter (fun t => pyIn t text)).length
  let bonus : ℚ :=
    if [".edu".data, ".gov".data].any (fun suf => pyIn suf (_domain url)) then mkRat 1 2 else 0
  (hits : ℚ) + bonus

/-- A raw search hit as returned by `web_search`: the dict with keys
`title`, `url`, `snippet`. -/
structure Hit where
  title : PyStr
  url : PyStr
  snippet : PyStr
deriving DecidableEq

/-- The `CuratedSource` pydantic model: a hit together with its score. -/
structure CuratedSource where
  title : PyStr
  url : PyStr
  snippet : PyStr
  score : ℚ
deriving DecidableEq

/-- Build the `CuratedSource` that `curate_sources` appends for a raw hit. -/
def mkCurated (query : PyStr) (h : Hit) : CuratedSource :=
  ⟨h.title, h.url, h.snippet, _score_item query h.title h.snippet h.url⟩

/-- Forget the score of a curated source, recovering the raw-hit fields. -/
def toHit (c : CuratedSource) : Hit := ⟨c.title, c.url, c.snippet⟩

/-- The comparison used by `curated.sort(key=lambda x: x.score, reverse=True)`:
descending by score. -/
def scoreGE (a b : CuratedSource) : Prop := b.score ≤ a.score

instance : DecidableRel scoreGE := fun a b => inferInstanceAs (Decidable (b.score ≤ a.score))

instance : IsTotal CuratedSource scoreGE := ⟨fun a b => le_total b.score a.score⟩

instance : IsTrans CuratedSource scoreGE := ⟨fun _ _ _ h1 h2 => le_trans h2 h1⟩

/-- The deduplication loop of `curate_sources`: walk the scored hits in
provider order, keeping a hit only when its domain was not seen before.  The
`seen` set of the Python code is the second argument. -/
def dedupByDomain : List CuratedSource → List PyStr → List CuratedSource
  | [], _ => []
  | c :: l, seen =>
    if _domain c.url ∈ seen then dedupByDomain l seen
    else c :: dedupByDomain l (_domain c.url :: seen)

/-- Embedding of the pure part of `curate_sources` from `ScholarAI5.py`: the
raw hits (in this file an explicit argument, standing for the value of
`web_search(query, k)`) are scored, deduplicated by domain keeping first
occurrences, stably sorted by score descending, and truncated to `top_n`.
`List.insertionSort` with the total preorder `scoreGE` is exactly the stable
descending sort that Python `list.sort(reverse=True)` performs. -/
def curate_sources (query : PyStr) (raw : List Hit) (top_n : Nat) : List CuratedSource :=
  List.take top_n (List.insertionSort scoreGE (dedupByDomain (raw.map (mkCurated query)) []))

/-! ### Spec-shaped definitions for the curator claims

The following two definitions are written from the words of the spec, not
from the source; they exist only to be compared against the embeddings
above. -/

/-- Written from the words of claim C4: the URL host, lower-cased, with a
leading `www.` stripped and nothing else altered. -/
def C4_spec_domain (u : PyStr) : PyStr :=
  let host := pyLower (extractNetloc u)
  if "www.".data.isPrefixOf host then host.drop 4 else host

/-- Written from the words of claim C3: the distinct-token overlap count plus
one half exactly when the domain ends in `.edu` or `.gov`. -/
def C3_spec_score (query title snippet url : PyStr) : ℚ :=
  (((pyWords (normalize_text query)).toFinset.filter
      (fun tk => pyIn tk (normalize_text (title ++ ' ' :: snippet)) = true)).card : ℚ)
  + (if ".edu".data.isSuffixOf (_domain url) || ".gov".data.isSuffixOf (_domain url)
     then mkRat 1 2 else 0)

/-! ### The topic splitter (advanced submission)

`TopicSplitterAgent.run` sends one chat request and post-processes the
response body with `json.loads`.  The JSON value space of Python is modelled
by `JsonVal`; a Python dict is an insertion-ordered association list, which
is what iteration (`subtopics.items()`) and `list(subtopics.values())`
observe.  The parse step itself (`json.loads`, standard library) is the
repository boundary: `run` is modelled as a function of the parse outcome,
with `none` standing for a body that raised `json.JSONDecodeError`. -/

/-- Values produced by `json.loads`. -/
inductive JsonVal where
  | str (s : String)
  | num (q : ℚ)
  | bool (b : Bool)
  | null
  | arr (items : List JsonVal)
  | obj (entries : List (String × JsonVal))

/-- Model of `isinstance(v, list)`. -/
def JsonVal.isList : JsonVal → Bool
  | .arr _ => true
  | _ => false

/-- Embedding of the parsing policy of `TopicSplitterAgent.run`
(`agents/topic_splitter.py`): on a parse failure return the empty list; on a
dict scan the entries in insertion order for the first list value and return
it, otherwise return `list(subtopics.values())[0]` when the dict is nonempty
and the empty list when it is empty; on any other value return it as is. -/
def TopicSplitterAgent.run (parsed : Option JsonVal) : JsonVal :=
  match parsed with
  | none => .arr []
  | some (.obj entries) =>
    match entries.find? (fun kv => kv.2.isList) with
    | some kv => kv.2
    | none =>
      match entries with
      | [] => .arr []
      | kv :: _ => kv.2
  | some j => j

/-! ### The researcher (advanced submission)

`ResearcherAgent.run` makes one Tavily search call and one chat call, with no
exception handling of its own.  Exceptions of the external clients are
modelled as `Except` errors carrying the Python exception class name and
message.  `run` returns, besides its outcome, the number of search calls and
the number of chat calls it performed, so that the no-retry property is
visible in the model. -/

/-- A Python exception: class name and message. -/
structure PyExc where
  cls : String
  msg : String
deriving DecidableEq

/-- One entry of the `results` list of a Tavily search response. -/
structure SearchItem where
  url : String
  content : String

/-- The context block built by `ResearcherAgent.run` from the top three
search results. -/
def buildContext (results : List SearchItem) : String :=
  String.intercalate "\n\n"
    ((results.take 3).map (fun r => "Source: " ++ r.url ++ "\nContent: " ++ r.content))

/-- The user prompt f-string of `ResearcherAgent.run`. -/
def researcherPrompt (subtopic context : String) : String :=
  "\n        Research the following sub-topic using the provided search results.\n        Provide a detailed summary including key insights and citations.\n        \n        Sub-topic: " ++ subtopic ++ "\n        \n        Search Results:\n        " ++ context ++ "\n        "

/-- Embedding of `ResearcherAgent.run` (`agents/researcher.py`).  `search`
models `self.tavily.search` already projected to its `results` list, `chat`
models the chat-completion call (system message, user prompt).  The second
and third components count the search calls and the chat calls made.  There
is no `try`/`except` in the source: an error of either client is returned
unchanged. -/
def researcherSystem : String :=
  "You are a researcher agent. Summarize findings based on search results."

def ResearcherAgent.run (search : String → Except PyExc (List SearchItem))
    (chat : String → String → Except PyExc String) (subtopic : String) :
    Except PyExc String × Nat × Nat :=
  match search subtopic with
  | .error e => (.error e, 1, 0)
  | .ok results =>
    let context := buildContext results
    let prompt := researcherPrompt subtopic context
    match chat researcherSystem prompt with
    | .error e => (.error e, 1, 1)
    | .ok content => (.ok content, 1, 1)

/-- Concrete search capability used by witness theorems: always raises. -/
def witnessSearchFail : String → Except PyExc (List SearchItem) :=
  fun _ => .error ⟨"ValueError", "boom"⟩

/-- Concrete search capability used by witness theorems: one result. -/
def witnessSearchOk : String → Except PyExc (List SearchItem) :=
  fun s => .ok [⟨"https://example.com/" ++ s, "content about " ++ s⟩]

/-- Concrete chat capability used by witness theorems. -/
def witnessChat : String → String → Except PyExc String :=
  fun _ _ => .ok "summary"

/-! ### The workflow (advanced submission)

`ResearchWorkflow.run` splits the topic, fans research out over a thread
pool, collects results in completion order, and synthesizes once.  The model
takes the split result (`subtopics`) and a completion order (the sequence in
which `concurrent.futures.as_completed` yields the futures; always a
permutation of the submitted sub-topics) as parameters.  The research
capability is a function of the sub-topic, matching the code where
`self.researcher.run` is invoked per sub-topic; `Except.error msg` models a
raised exception whose string form is `msg`.  Python dicts are modelled as
insertion-ordered association lists with in-place update.  The result is
`none` when the run would raise — the only possible raise inside the modelled
region is the `completed_count / len(subtopics)` division when the sub-topic
list is empty, which the model guards explicitly.  The fourth component
records every `synthesizer.run` invocation with its arguments. -/

/-- One `progress_callback(message, step, total_steps)` invocation. -/
structure ProgressEvent where
  message : String
  step : Option ℚ
  total : Option ℚ

/-- Python dict assignment `m[k] = v`: update the value in place when the key
exists, otherwise append the binding. -/
def dictInsert (m : List (String × String)) (k v : String) : List (String × String) :=
  if m.any (fun p => p.1 == k) then m.map (fun p => if p.1 == k then (k, v) else p)
  else m ++ [(k, v)]

/-- The value stored for a sub-topic by the collection loop: the finding on
success, the string `"Error: " ++ msg` when the research step raised. -/
def findingOf (research : String → Except String String) (s : String) : String :=
  match research s with
  | .ok f => f
  | .error e => "Error: " ++ e

/-- The `as_completed` collection loop of `ResearchWorkflow.run`: `n` is
`len(subtopics)`, the list argument is the completion order, the map and the
counter are the loop state.  Returns the final findings map and the progress
events emitted by the loop, or `none` for the division by zero. -/
def researchLoop (research : String → Except String String) (n : Nat) :
    List String → List (String × String) → Nat →
    Option (List (String × String) × List ProgressEvent)
  | [], m, _ => some (m, [])
  | s :: rest, m, c =>
    if n = 0 then none
    else
      match researchLoop research n rest (dictInsert m s (findingOf research s)) (c + 1) with
      | none => none
      | some (m', evs) =>
        some (m', ⟨"Researched " ++ s, some (1 + ((c : ℚ) + 1) / (n : ℚ)), some 3⟩ :: evs)

/-- Embedding of `ResearchWorkflow.run` (`workflow.py`).  `research` and
`synthesize` stand for `self.researcher.run` and `self.synthesizer.run`;
`subtopics` is the value returned by the splitter; `completionOrder` is the
order in which the futures complete.  Returns the final report, the findings
map, the progress events, and the list of synthesizer invocations. -/
def ResearchWorkflow.run (research : String → Except String String)
    (synthesize : String → List (String × String) → String)
    (topic : String) (subtopics : List String) (completionOrder : List String) :
    Option (String × List (String × String) × List ProgressEvent ×
            List (String × List (String × String))) :=
  let pre : List ProgressEvent :=
    [⟨"Starting research on: " ++ topic, some 0, some 3⟩,
     ⟨"Splitting topic...", some (1/10), some 3⟩,
     ⟨"Conducting research...", some 1, some 3⟩]
  match researchLoop research subtopics.length completionOrder [] 0 with
  | none => none
  | some (m, evs) =>
    let report := synthesize topic m
    some (report, m,
      pre ++ evs ++ [⟨"Synthesizing findings...", some 2, some 3⟩,
                     ⟨"Research complete!", some 3, some 3⟩],
      [(topic, m)])

/-- The five phase-level progress events of a run whose research phase is
empty, in emission order. -/
def phaseEvents (topic : String) : List ProgressEvent :=
  [⟨"Starting research on: " ++ topic, some 0, some 3⟩,
   ⟨"Splitting topic...", some (1/10), some 3⟩,
   ⟨"Conducting research...", some 1, some 3⟩,
   ⟨"Synthesizing findings...", some 2, some 3⟩,
   ⟨"Research complete!", some 3, some 3⟩]

/-- Concrete research capability used by witness theorems: fails on the
sub-topic `"b"`, succeeds elsewhere. -/
def witnessResearch (s : String) : Except String String :=
  if s = "b" then .error "boom" else .ok ("finding for " ++ s)

/-- Concrete synthesis capability used by witness theorems. -/
def witnessSynth (topic : String) (m : List (String × String)) : String :=
  topic ++ " report with " ++ toString m.length ++ " findings"

/-- Concrete raw hits used by witness theorems for the curator claims. -/
def witnessHits : List Hit :=
  [⟨"alpha beta".data, "https://www.one.com/a".data, "gamma".data⟩,
   ⟨"alpha".data, "https://two.edu/b".data, "delta".data⟩,
   ⟨"beta".data, "https://one.com/c".data, "epsilon".data⟩]

/-! ## Theorems -/

/-- The first element of a list whose earlier elements all fail the predicate
and which itself passes it is what `find?` returns. -/
theorem find?_first_true {α : Type} (p : α → Bool) (pre : List α) (x : α) (post : List α)
    (hpre : ∀ y ∈ pre, p y = false) (hx : p x = true) :
    (pre ++ x :: post).find? p = some x := by
  induction pre with
  | nil => simp [List.find?_cons_of_pos, hx]
  | cons a l ih =>
    have ha := hpre a (by simp)
    simp only [List.cons_append]
    rw [List.find?_cons_of_neg _ (by simp [ha])]
    exact ih (fun y hy => hpre y (by simp [hy]))

/-- Claim C7: for every body that parses as a JSON list, the splitter
returns that list unchanged whatever its elements are, and for a body that
does not parse as JSON it returns the empty list instead of raising. -/
theorem C7_fail_soft (items : List JsonVal) :
    TopicSplitterAgent.run (some (.arr items)) = .arr items ∧
    TopicSplitterAgent.run none = .arr [] :=
  ⟨rfl, rfl⟩

/-- Witness for C7 at a concrete heterogeneous list. -/
theorem C7_fail_soft_witness :
    TopicSplitterAgent.run (some (.arr [.str "A", .num 3, .null])) = .arr [.str "A", .num 3, .null] ∧
    TopicSplitterAgent.run none = .arr [] :=
  C7_fail_soft [.str "A", .num 3, .null]

/-- Claim C10: a body that parses as a JSON scalar (string, number, boolean
or null) is returned by the splitter verbatim, and the returned value is not
a list, so the list-of-strings contract is not enforced. -/
theorem C10_scalar_passthrough (s : String) (q : ℚ) (b : Bool) :
    (TopicSplitterAgent.run (some (.str s)) = .str s ∧ (JsonVal.str s).isList = false) ∧
    (TopicSplitterAgent.run (some (.num q)) = .num q ∧ (JsonVal.num q).isList = false) ∧
    (TopicSplitterAgent.run (some (.bool b)) = .bool b ∧ (JsonVal.bool b).isList = false) ∧
    (TopicSplitterAgent.run (some .null) = .null ∧ JsonVal.null.isList = false) :=
  ⟨⟨rfl, rfl⟩, ⟨rfl, rfl⟩, ⟨rfl, rfl⟩, ⟨rfl, rfl⟩⟩

/-- Witness for C10 at concrete scalars. -/
theorem C10_scalar_passthrough_witness :
    (TopicSplitterAgent.run (some (.str "only one topic")) = .str "only one topic" ∧
      (JsonVal.str "only one topic").isList = false) ∧
    (TopicSplitterAgent.run (some (.num 7)) = .num 7 ∧ (JsonVal.num 7).isList = false) ∧
    (TopicSplitterAgent.run (some (.bool true)) = .bool true ∧
      (JsonVal.bool true).isList = false) ∧
    (TopicSplitterAgent.run (some .null) = .null ∧ JsonVal.null.isList = false) :=
  C10_scalar_passthrough "only one topic" 7 true

/-- Counterexample to claim C2 as stated: on an object none of whose values
is a list, the code returns the first value (here the string `"x"`), not the
list of all values. -/
theorem C2_counterexample :
    TopicSplitterAgent.run (some (.obj [("a", .str "x"), ("b", .str "y")])) = .str "x" ∧
    TopicSplitterAgent.run (some (.obj [("a", .str "x"), ("b", .str "y")])) ≠
      .arr [.str "x", .str "y"] :=
  ⟨rfl, fun h => JsonVal.noConfusion h⟩

/-- Claim C2 as amended: on a JSON object the splitter returns the first
value in insertion order that is a list; when none of the values is a list
it returns the object's first value (which need not be a list); on the
empty object it returns the empty list. -/
theorem C2_object_parsing (entries : List (String × JsonVal)) :
    (∀ pre kv post, entries = pre ++ kv :: post →
      (∀ p ∈ pre, p.2.isList = false) → kv.2.isList = true →
      TopicSplitterAgent.run (some (.obj entries)) = kv.2) ∧
    ((∀ p ∈ entries, p.2.isList = false) → ∀ kv rest, entries = kv :: rest →
      TopicSplitterAgent.run (some (.obj entries)) = kv.2) ∧
    (entries = [] → TopicSplitterAgent.run (some (.obj entries)) = .arr []) := by
  refine ⟨?_, ?_, ?_⟩
  · intro pre kv post heq hpre hkv
    subst heq
    simp only [TopicSplitterAgent.run]
    rw [find?_first_true (fun p => p.2.isList) pre kv post hpre hkv]
  · intro hall kv rest heq
    subst heq
    simp only [TopicSplitterAgent.run]
    rw [List.find?_eq_none.mpr (fun p hp => by simp [hall p hp])]
  · intro h
    subst h
    rfl

/-- Witness for C2 exercising all three branches of the amended claim. -/
theorem C2_object_parsing_witness :
    TopicSplitterAgent.run (some (.obj [("k", .str "v"), ("s", .arr [.str "A"])])) =
      .arr [.str "A"] ∧
    TopicSplitterAgent.run (some (.obj [("u", .str "p"), ("w", .num 2)])) = .str "p" ∧
    TopicSplitterAgent.run (some (.obj [])) = .arr [] :=
  ⟨(C2_object_parsing [("k", .str "v"), ("s", .arr [.str "A"])]).1
      [("k", .str "v")] ("s", .arr [.str "A"]) [] rfl
      (by intro p hp; simp at hp; rw [hp]; rfl) rfl,
   (C2_object_parsing [("u", .str "p"), ("w", .num 2)]).2.1
      (by intro p hp; simp at hp; rcases hp with rfl | rfl <;> rfl)
      ("u", .str "p") [("w", .num 2)] rfl,
   (C2_object_parsing []).2.2 rfl⟩

/-- Counterexample to claim C9 as stated: when the search call raises, the
raw exception (class `ValueError`, message `boom`) escapes
`ResearcherAgent.run` unwrapped — no `ResearchError` identifying the
sub-topic is produced (the repository defines no such class and `run` has no
exception handling). -/
theorem C9_counterexample :
    ResearcherAgent.run witnessSearchFail witnessChat "quantum" =
      (.error ⟨"ValueError", "boom"⟩, 1, 0) ∧
    ("ValueError" : String) ≠ "ResearchError" :=
  ⟨rfl, by decide⟩

/-- Claim C9 as amended: an exception of the search call or of the LLM call
propagates out of `ResearcherAgent.run` unchanged (no wrapping), and no
retry is attempted — the search call is made exactly once per invocation,
and the LLM call exactly once when the search succeeds and never when it
fails. -/
theorem C9_no_wrapping (search : String → Except PyExc (List SearchItem))
    (chat : String → String → Except PyExc String) (subtopic : String) :
    (ResearcherAgent.run search chat subtopic).2.1 = 1 ∧
    (∀ e, search subtopic = .error e →
      ResearcherAgent.run search chat subtopic = (.error e, 1, 0)) ∧
    (∀ results e, search subtopic = .ok results →
      chat researcherSystem (researcherPrompt subtopic (buildContext results)) = .error e →
      ResearcherAgent.run search chat subtopic = (.error e, 1, 1)) ∧
    (∀ results content, search subtopic = .ok results →
      chat researcherSystem (researcherPrompt subtopic (buildContext results)) = .ok content →
      ResearcherAgent.run search chat subtopic = (.ok content, 1, 1)) := by
  refine ⟨?_, ?_, ?_, ?_⟩
  · cases hs : search subtopic with
    | error e => simp [ResearcherAgent.run, hs]
    | ok results =>
      cases hc : chat researcherSystem (researcherPrompt subtopic (buildContext results)) with
      | error e => simp [ResearcherAgent.run, hs, hc]
      | ok content => simp [ResearcherAgent.run, hs, hc]
  · intro e he
    simp [ResearcherAgent.run, he]
  · intro results e hs hc
    simp [ResearcherAgent.run, hs, hc]
  · intro results content hs hc
    simp [ResearcherAgent.run, hs, hc]

/-- Witness for C9: the raw search failure and the full success path, at
concrete capabilities. -/
theorem C9_no_wrapping_witness :
    ResearcherAgent.run witnessSearchFail witnessChat "solar" =
      (.error ⟨"ValueError", "boom"⟩, 1, 0) ∧
    ResearcherAgent.run witnessSearchOk witnessChat "solar" = (.ok "summary", 1, 1) :=
  ⟨(C9_no_wrapping witnessSearchFail witnessChat "solar").2.1 ⟨"ValueError", "boom"⟩ rfl,
   (C9_no_wrapping witnessSearchOk witnessChat "solar").2.2.2
     [⟨"https://example.com/" ++ "solar", "content about " ++ "solar"⟩] "summary" rfl rfl⟩

/-- Counting the members of a duplicate-free token set that pass a predicate
is the same whether the set is modelled by `dedup` (as the embedding does) or
by `toFinset` (as the claim states it). -/
theorem length_filter_dedup {α : Type} [DecidableEq α] (l : List α) (p : α → Bool) :
    (l.dedup.filter p).length = (l.toFinset.filter (fun x => p x = true)).card := by
  have h1 : l.toFinset.filter (fun x => p x = true) = (l.dedup.filter p).toFinset := by
    ext x
    simp [List.mem_toFinset, List.mem_filter, List.mem_dedup]
  rw [h1, List.toFinset_card_of_nodup ((List.nodup_dedup l).filter p)]

unseal Rat.add in
/-- Counterexample to claim C3 as stated: for the URL
`https://x.edu.example.com/a` the domain contains `.edu` as a substring but
does not end in `.edu` or `.gov`, so the code awards the `0.5` bonus while
the claimed score function awards `0`. -/
theorem C3_counterexample :
    _score_item "alpha".data "beta".data "gamma".data "https://x.edu.example.com/a".data
      = mkRat 1 2 ∧
    C3_spec_score "alpha".data "beta".data "gamma".data "https://x.edu.example.com/a".data
      = 0 ∧
    _score_item "alpha".data "beta".data "gamma".data "https://x.edu.example.com/a".data ≠
      C3_spec_score "alpha".data "beta".data "gamma".data "https://x.edu.example.com/a".data :=
  ⟨by decide, by decide, by decide⟩

/-- Claim C3 as amended: the score equals the number of distinct
whitespace-normalized, lower-cased query tokens occurring as substrings of
the whitespace-normalized, lower-cased `title snippet` text, plus one half
exactly when `.edu` or `.gov` occurs as a substring of the hit's domain. -/
theorem C3_score_function (query title snippet url : PyStr) :
    _score_item query title snippet url =
      (((pyWords (normalize_text query)).toFinset.filter
          (fun tk => pyIn tk (normalize_text (title ++ ' ' :: snippet)) = true)).card : ℚ) +
      (if pyIn ".edu".data (_domain url) = true ∨ pyIn ".gov".data (_domain url) = true
        then mkRat 1 2 else 0) := by
  simp only [_score_item]
  rw [length_filter_dedup]
  congr 1
  simp [List.any_cons, List.any_nil, Bool.or_eq_true]

/-- Taking while a predicate holds stops exactly at the first failing
element. -/
theorem takeWhile_append_of_all {α : Type} (p : α → Bool) (l : List α) (c : α) (r : List α)
    (hl : ∀ x ∈ l, p x = true) (hc : p c = false) :
    (l ++ c :: r).takeWhile p = l := by
  induction l with
  | nil => simp [List.takeWhile_cons, hc]
  | cons a t ih =>
    have ha := hl a (by simp)
    simp only [List.cons_append, List.takeWhile_cons, ha, if_true]
    rw [ih (fun x hx => hl x (by simp [hx]))]

/-- Scheme characters are never the colon. -/
theorem schemeChar_ne_colon {c : Char} (h : isSchemeChar c = true) : (c != ':') = true := by
  cases hc : (c == ':') with
  | false => simp [bne, hc]
  | true =>
    have hceq : c = ':' := eq_of_beq hc
    subst hceq
    exact absurd h (by decide)

/-- Letters are scheme characters. -/
theorem alpha_schemeChar {c : Char} (h : c.isAlpha = true) : isSchemeChar c = true := by
  simp [isSchemeChar, Char.isAlphanum, h]

/-- Counterexample to claim C4 as stated: for the URL
`https://a.www.b.com/x` the code removes the inner `www.` occurrence (it
replaces every occurrence, not only a leading one), while the claimed
normalization leaves the host unchanged. -/
theorem C4_counterexample :
    _domain "https://a.www.b.com/x".data = "a.b.com".data ∧
    C4_spec_domain "https://a.www.b.com/x".data = "a.www.b.com".data ∧
    _domain "https://a.www.b.com/x".data ≠ C4_spec_domain "https://a.www.b.com/x".data :=
  ⟨by decide, by decide, by decide⟩

/-- Claim C4 as amended: for every well-formed absolute URL the domain key
is the host, lower-cased, with every occurrence of `www.` removed (leftmost
first, without overlap); the two example URLs of the claim do agree on their
domain key. -/
theorem C4_domain_normalization (scheme host rest : PyStr)
    (hscheme : validScheme scheme = true)
    (hhost : ∀ c ∈ host, c ≠ '/' ∧ c ≠ '?' ∧ c ≠ '#') :
    _domain (scheme ++ ':' :: '/' :: '/' :: (host ++ '/' :: rest)) =
      pyReplaceWWW (pyLower host) ∧
    _domain "https://www.EXAMPLE.com/x".data = _domain "http://example.com/y".data := by
  constructor
  · have hall : ∀ x ∈ scheme, (x != ':') = true := by
      intro x hx
      cases scheme with
      | nil => cases hx
      | cons c0 tl =>
        simp only [validScheme, Bool.and_eq_true] at hscheme
        rcases List.mem_cons.mp hx with rfl | hx'
        · exact schemeChar_ne_colon (alpha_schemeChar hscheme.1)
        · exact schemeChar_ne_colon (List.all_eq_true.mp hscheme.2 x hx')
    have hpre : (scheme ++ ':' :: '/' :: '/' :: (host ++ '/' :: rest)).takeWhile
        (fun c => c != ':') = scheme :=
      takeWhile_append_of_all _ scheme ':' _ hall (by decide)
    have hsplit : splitScheme (scheme ++ ':' :: '/' :: '/' :: (host ++ '/' :: rest)) =
        '/' :: '/' :: (host ++ '/' :: rest) := by
      simp only [splitScheme, hpre]
      rw [if_pos ⟨by simp [List.length_append], hscheme⟩]
      have hsp : scheme ++ ':' :: '/' :: '/' :: (host ++ '/' :: rest) =
          (scheme ++ [':']) ++ '/' :: '/' :: (host ++ '/' :: rest) := by simp
      rw [hsp, List.drop_left' (by simp)]
    have hhostp : ∀ x ∈ host, (!(x == '/' || x == '?' || x == '#')) = true := by
      intro x hx
      obtain ⟨h1, h2, h3⟩ := hhost x hx
      simp [beq_eq_false_iff_ne.mpr h1, beq_eq_false_iff_ne.mpr h2, beq_eq_false_iff_ne.mpr h3]
    have hnet : extractNetloc (scheme ++ ':' :: '/' :: '/' :: (host ++ '/' :: rest)) = host := by
      unfold extractNetloc
      rw [hsplit]
      exact takeWhile_append_of_all _ host '/' rest hhostp (by decide)
    unfold _domain
    rw [hnet]
  · decide

/-- Two appended strings differ whenever their left parts differ within the
first `k` characters. -/
theorem append_ne_append (a b t s : String) (k : Nat)
    (hk : a.data.take k ≠ b.data.take k) (ha : k ≤ a.data.length) (hb : k ≤ b.data.length) :
    a ++ t ≠ b ++ s := by
  intro heq
  apply hk
  have hd : a.data ++ t.data = b.data ++ s.data := by
    simpa [String.data_append] using congrArg String.data heq
  have h1 : (a.data ++ t.data).take k = a.data.take k := by
    rw [List.take_append_eq_append_take, Nat.sub_eq_zero_of_le ha, List.take_zero,
      List.append_nil]
  have h2 : (b.data ++ s.data).take k = b.data.take k := by
    rw [List.take_append_eq_append_take, Nat.sub_eq_zero_of_le hb, List.take_zero,
      List.append_nil]
  rw [← h1, ← h2, hd]

/-- A string differs from an appended string whenever it differs from the
left part within the first `k` characters. -/
theorem const_ne_append (a b s : String) (k : Nat)
    (hk : a.data.take k ≠ b.data.take k) (hb : k ≤ b.data.length) : a ≠ b ++ s := by
  intro heq
  apply hk
  have hd : a.data = b.data ++ s.data := by
    simpa [String.data_append] using congrArg String.data heq
  rw [hd, List.take_append_eq_append_take, Nat.sub_eq_zero_of_le hb, List.take_zero,
    List.append_nil]

/-- None of the five phase events carries a per-sub-topic research message. -/
theorem phaseEvents_no_research (topic : String) :
    ∀ ev ∈ phaseEvents topic, ∀ s : String, ev.message ≠ "Researched " ++ s := by
  intro ev hev s
  simp only [phaseEvents, List.mem_cons, List.not_mem_nil, or_false] at hev
  rcases hev with rfl | rfl | rfl | rfl | rfl
  · exact append_ne_append "Starting research on: " "Researched " topic s 10
      (by decide) (by decide) (by decide)
  · exact const_ne_append "Splitting topic..." "Researched " s 10 (by decide) (by decide)
  · exact const_ne_append "Conducting research..." "Researched " s 10 (by decide) (by decide)
  · exact const_ne_append "Synthesizing findings..." "Researched " s 10 (by decide) (by decide)
  · exact const_ne_append "Research complete!" "Researched " s 10 (by decide) (by decide)

/-- Claim C8: when the splitter returns no sub-topics, the run completes
without raising (in particular the guarded division never executes), the
findings map is empty, the synthesizer is called exactly once with the empty
map, the report is exactly what the synthesis capability returns, and no
per-sub-topic research progress event is emitted. -/
theorem C8_empty_split (research : String → Except String String)
    (synthesize : String → List (String × String) → String) (topic : String) :
    ResearchWorkflow.run research synthesize topic [] [] =
      some (synthesize topic [], [], phaseEvents topic, [(topic, [])]) ∧
    ∀ ev ∈ phaseEvents topic, ∀ s : String, ev.message ≠ "Researched " ++ s :=
  ⟨rfl, phaseEvents_no_research topic⟩

/-- Witness for C8 at concrete capabilities and topic. -/
theorem C8_empty_split_witness :
    ResearchWorkflow.run witnessResearch witnessSynth "water" [] [] =
      some (witnessSynth "water" [], [], phaseEvents "water", [("water", [])]) ∧
    ∀ ev ∈ phaseEvents "water", ∀ s : String, ev.message ≠ "Researched " ++ s :=
  C8_empty_split witnessResearch witnessSynth "water"

/-- Updating a key that is already present leaves the key list unchanged. -/
theorem keys_dictInsert_of_mem {m : List (String × String)} {k : String}
    (h : m.any (fun p => p.1 == k) = true) (w : String) :
    (dictInsert m k w).map Prod.fst = m.map Prod.fst := by
  simp only [dictInsert, if_pos h]
  rw [List.map_map]
  apply List.map_congr_left
  intro p hp
  by_cases hpk : (p.1 == k) = true
  · simp only [Function.comp_apply, if_pos hpk]
    exact (eq_of_beq hpk).symm
  · simp only [Function.comp_apply, if_neg hpk]

/-- Membership in the key list after a dict assignment. -/
theorem mem_keys_dictInsert {m : List (String × String)} {k w a : String} :
    a ∈ (dictInsert m k w).map Prod.fst ↔ a ∈ m.map Prod.fst ∨ a = k := by
  by_cases h : m.any (fun p => p.1 == k) = true
  · rw [keys_dictInsert_of_mem h w]
    constructor
    · exact Or.inl
    · rintro (ha | rfl)
      · exact ha
      · obtain ⟨p, hp, hpk⟩ := List.any_eq_true.mp h
        exact List.mem_map.mpr ⟨p, hp, eq_of_beq hpk⟩
  · simp only [dictInsert, if_neg h]
    rw [List.map_append]
    simp [List.mem_append]

/-- A dict assignment of a key still absent appends it, keeping keys
duplicate-free. -/
theorem keys_nodup_dictInsert {m : List (String × String)}
    (hm : (m.map Prod.fst).Nodup) (k w : String) :
    ((dictInsert m k w).map Prod.fst).Nodup := by
  by_cases h : m.any (fun p => p.1 == k) = true
  · rw [keys_dictInsert_of_mem h w]
    exact hm
  · simp only [dictInsert, if_neg h]
    rw [List.map_append]
    rw [List.nodup_append]
    refine ⟨hm, by simp, ?_⟩
    intro a ha hak
    simp only [List.map_cons, List.map_nil, List.mem_cons, List.not_mem_nil, or_false] at hak
    subst hak
    obtain ⟨p, hp, hpa⟩ := List.mem_map.mp ha
    exact h (List.any_eq_true.mpr ⟨p, hp, by rw [hpa]; exact beq_self_eq_true _⟩)

/-- When every stored value is determined by its key through `v`, a dict
assignment of `v k` preserves that invariant. -/
theorem values_dictInsert {m : List (String × String)} {v : String → String}
    (hm : ∀ p ∈ m, p.2 = v p.1) (k : String) :
    ∀ p ∈ dictInsert m k (v k), p.2 = v p.1 := by
  intro p hp
  by_cases h : m.any (fun q => q.1 == k) = true
  · simp only [dictInsert, if_pos h] at hp
    obtain ⟨q, hq, hfq⟩ := List.mem_map.mp hp
    by_cases hqk : (q.1 == k) = true
    · rw [if_pos hqk] at hfq
      rw [← hfq]
    · rw [if_neg hqk] at hfq
      rw [← hfq]
      exact hm q hq
  · simp only [dictInsert, if_neg h] at hp
    rcases List.mem_append.mp hp with hp' | hp'
    · exact hm p hp'
    · simp only [List.mem_cons, List.not_mem_nil, or_false] at hp'
      rw [hp']

/-- The invariant carried through the collection loop: the findings map has
duplicate-free keys, every value is determined by its key, and the key set
is the processed sub-topics together with the keys already present. -/
theorem foldl_dictInsert_invariant (v : String → String) :
    ∀ (l : List String) (m : List (String × String)),
      (m.map Prod.fst).Nodup → (∀ p ∈ m, p.2 = v p.1) →
      ((l.foldl (fun acc s => dictInsert acc s (v s)) m).map Prod.fst).Nodup ∧
        (∀ p ∈ l.foldl (fun acc s => dictInsert acc s (v s)) m, p.2 = v p.1) ∧
        (∀ a, a ∈ (l.foldl (fun acc s => dictInsert acc s (v s)) m).map Prod.fst ↔
          a ∈ m.map Prod.fst ∨ a ∈ l) := by
  intro l
  induction l with
  | nil =>
    intro m h1 h2
    exact ⟨h1, h2, fun a => by simp⟩
  | cons s rest ih =>
    intro m h1 h2
    obtain ⟨g1, g2, g3⟩ := ih (dictInsert m s (v s)) (keys_nodup_dictInsert h1 s (v s))
      (values_dictInsert h2 s)
    simp only [List.foldl_cons]
    refine ⟨g1, g2, fun a => ?_⟩
    rw [g3 a, mem_keys_dictInsert]
    simp only [List.mem_cons]
    tauto

/-- Looking up a present key in a map whose values are determined by their
keys yields the determined value. -/
theorem lookup_eq_of_mem_keys {v : String → String} :
    ∀ {m : List (String × String)}, (∀ p ∈ m, p.2 = v p.1) →
      ∀ {a : String}, a ∈ m.map Prod.fst → m.lookup a = some (v a) := by
  intro m
  induction m with
  | nil =>
    intro _ a ha
    simp at ha
  | cons p rest ih =>
    intro hv a ha
    obtain ⟨k, b⟩ := p
    by_cases hka : (a == k) = true
    · have hk : a = k := eq_of_beq hka
      subst hk
      have hb : b = v a := hv (a, b) (by simp)
      simp [List.lookup, hb]
    · have ha' : a ∈ rest.map Prod.fst := by
        simp only [List.map_cons, List.mem_cons] at ha
        rcases ha with rfl | ha'
        · exact absurd (beq_self_eq_true _) hka
        · exact ha'
      simp only [List.lookup, hka]
      exact ih (fun q hq => hv q (by simp [hq])) ha'

/-- With at least one sub-topic the collection loop never raises: it returns
the fold of dict assignments over the completion order, together with some
progress-event list. -/
theorem researchLoop_some (research : String → Except String String) {n : Nat} (hn : n ≠ 0) :
    ∀ (l : List String) (m : List (String × String)) (c : Nat),
      ∃ evs, researchLoop research n l m c =
        some (l.foldl (fun acc s => dictInsert acc s (findingOf research s)) m, evs) := by
  intro l
  induction l with
  | nil =>
    intro m c
    exact ⟨[], rfl⟩
  | cons s rest ih =>
    intro m c
    obtain ⟨evs, hevs⟩ := ih (dictInsert m s (findingOf research s)) (c + 1)
    refine ⟨⟨"Researched " ++ s, some (1 + ((c : ℚ) + 1) / (n : ℚ)), some 3⟩ :: evs, ?_⟩
    simp only [List.foldl_cons, researchLoop, if_neg hn]
    rw [hevs]

/-- Claim C1: with at least one sub-topic, research failing for exactly one
sub-topic and succeeding for the rest, the run completes without raising,
the findings map has exactly one entry per distinct sub-topic, the failed
sub-topic maps to the error-formatted string, every other sub-topic maps to
its returned finding, and the synthesizer is invoked exactly once with this
complete map, producing the returned report. -/
theorem C1_failure_containment (research : String → Except String String)
    (synthesize : String → List (String × String) → String)
    (topic s0 msg : String) (subtopics completionOrder : List String)
    (hperm : completionOrder.Perm subtopics) (hne : subtopics ≠ [])
    (hmem : s0 ∈ subtopics) (hfail : research s0 = .error msg)
    (hok : ∀ s ∈ subtopics, s ≠ s0 → ∃ f, research s = .ok f) :
    ∃ report findings evs,
      ResearchWorkflow.run research synthesize topic subtopics completionOrder =
        some (report, findings, evs, [(topic, findings)]) ∧
      (findings.map Prod.fst).Nodup ∧
      (∀ a, a ∈ findings.map Prod.fst ↔ a ∈ subtopics) ∧
      findings.lookup s0 = some ("Error: " ++ msg) ∧
      (∀ s, s ∈ subtopics → s ≠ s0 → ∃ f, research s = .ok f ∧
        findings.lookup s = some f) ∧
      report = synthesize topic findings := by
  have hn : subtopics.length ≠ 0 := fun h => hne (List.length_eq_zero.mp h)
  obtain ⟨evs, hloop⟩ := researchLoop_some research hn completionOrder [] 0
  obtain ⟨g1, g2, g3⟩ := foldl_dictInsert_invariant (findingOf research) completionOrder []
    (by simp) (by simp)
  set F := completionOrder.foldl (fun acc s => dictInsert acc s (findingOf research s)) []
    with hF
  have hrun : ResearchWorkflow.run research synthesize topic subtopics completionOrder =
      some (synthesize topic F, F,
        [⟨"Starting research on: " ++ topic, some 0, some 3⟩,
         ⟨"Splitting topic...", some (1/10), some 3⟩,
         ⟨"Conducting research...", some 1, some 3⟩] ++ evs ++
        [⟨"Synthesizing findings...", some 2, some 3⟩,
         ⟨"Research complete!", some 3, some 3⟩], [(topic, F)]) := by
    simp only [ResearchWorkflow.run]
    rw [hloop]
  have hiff : ∀ a, a ∈ F.map Prod.fst ↔ a ∈ subtopics := by
    intro a
    rw [g3 a]
    simp [hperm.mem_iff]
  have hlook : F.lookup s0 = some ("Error: " ++ msg) := by
    have hks : s0 ∈ F.map Prod.fst := (g3 s0).mpr (Or.inr (hperm.mem_iff.mpr hmem))
    rw [lookup_eq_of_mem_keys g2 hks]
    simp [findingOf, hfail]
  have hall : ∀ s, s ∈ subtopics → s ≠ s0 → ∃ f, research s = .ok f ∧
      F.lookup s = some f := by
    intro s hs hns
    obtain ⟨f, hf⟩ := hok s hs hns
    have hks : s ∈ F.map Prod.fst := (g3 s).mpr (Or.inr (hperm.mem_iff.mpr hs))
    refine ⟨f, hf, ?_⟩
    rw [lookup_eq_of_mem_keys g2 hks]
    simp [findingOf, hf]
  exact ⟨synthesize topic F, F, _, hrun, g1, hiff, hlook, hall, rfl⟩

/-- Witness for C1: three sub-topics, the middle one failing, at concrete
capabilities. -/
theorem C1_failure_containment_witness :
    ∃ report findings evs,
      ResearchWorkflow.run witnessResearch witnessSynth "energy" ["a", "b", "c"]
          ["c", "b", "a"] =
        some (report, findings, evs, [("energy", findings)]) ∧
      (findings.map Prod.fst).Nodup ∧
      (∀ a, a ∈ findings.map Prod.fst ↔ a ∈ ["a", "b", "c"]) ∧
      findings.lookup "b" = some ("Error: " ++ "boom") ∧
      (∀ s, s ∈ ["a", "b", "c"] → s ≠ "b" → ∃ f, witnessResearch s = .ok f ∧
        findings.lookup s = some f) ∧
      report = witnessSynth "energy" findings :=
  C1_failure_containment witnessResearch witnessSynth "energy" "b" "boom"
    ["a", "b", "c"] ["c", "b", "a"] (by decide) (by decide) (by decide) rfl
    (fun s _ hns => ⟨"finding for " ++ s, by simp [witnessResearch, hns]⟩)

/-- The deduplication loop only keeps hits that were in its input. -/
theorem dedupByDomain_subset : ∀ (l : List CuratedSource) (seen : List PyStr),
    dedupByDomain l seen ⊆ l := by
  intro l
  induction l with
  | nil =>
    intro seen
    simp [dedupByDomain]
  | cons a rest ih =>
    intro seen
    simp only [dedupByDomain]
    by_cases hd : _domain a.url ∈ seen
    · rw [if_pos hd]
      exact (ih seen).trans (List.subset_cons_self _ _)
    · rw [if_neg hd]
      exact List.cons_subset_cons a (ih _)

/-- The domains of the kept hits are pairwise distinct and disjoint from the
already-seen set. -/
theorem dedupByDomain_domains_nodup :
    ∀ (l : List CuratedSource) (seen : List PyStr),
      ((dedupByDomain l seen).map (fun c => _domain c.url)).Nodup ∧
      ∀ d ∈ (dedupByDomain l seen).map (fun c => _domain c.url), d ∉ seen := by
  intro l
  induction l with
  | nil =>
    intro seen
    simp [dedupByDomain]
  | cons a rest ih =>
    intro seen
    simp only [dedupByDomain]
    by_cases hd : _domain a.url ∈ seen
    · rw [if_pos hd]
      exact ih seen
    · rw [if_neg hd]
      obtain ⟨h1, h2⟩ := ih (_domain a.url :: seen)
      refine ⟨?_, ?_⟩
      · simp only [List.map_cons, List.nodup_cons]
        exact ⟨fun hmem => (h2 _ hmem) (List.mem_cons_self _ _), h1⟩
      · intro d hdm
        simp only [List.map_cons, List.mem_cons] at hdm
        rcases hdm with rfl | hdm
        · exact hd
        · exact fun hds => (h2 d hdm) (List.mem_cons.mpr (Or.inr hds))

/-- Every kept hit is the scored image of the first raw hit carrying its
domain: earlier raw hits all have different domains. -/
theorem mem_dedupByDomain_split (query : PyStr) :
    ∀ (raw : List Hit) (seen : List PyStr) (c : CuratedSource),
      c ∈ dedupByDomain (raw.map (mkCurated query)) seen →
      ∃ pre h post, raw = pre ++ h :: post ∧ c = mkCurated query h ∧
        _domain h.url ∉ seen ∧
        ∀ h' ∈ pre, _domain h'.url ≠ _domain h.url := by
  intro raw
  induction raw with
  | nil =>
    intro seen c hc
    simp [dedupByDomain] at hc
  | cons a rest ih =>
    intro seen c hc
    simp only [List.map_cons, dedupByDomain] at hc
    by_cases hd : _domain (mkCurated query a).url ∈ seen
    · rw [if_pos hd] at hc
      obtain ⟨pre, h, post, heq, hceq, hnot, hpre⟩ := ih seen c hc
      refine ⟨a :: pre, h, post, by rw [heq, List.cons_append], hceq, hnot, ?_⟩
      intro h' hh'
      rcases List.mem_cons.mp hh' with rfl | hh'
      · have hd' : _domain h'.url ∈ seen := hd
        exact fun habs => hnot (habs ▸ hd')
      · exact hpre h' hh'
    · rw [if_neg hd] at hc
      rcases List.mem_cons.mp hc with rfl | hc'
      · exact ⟨[], a, rest, rfl, rfl, hd, by simp⟩
      · obtain ⟨pre, h, post, heq, hceq, hnot, hpre⟩ :=
          ih (_domain (mkCurated query a).url :: seen) c hc'
        have hnot2 : _domain h.url ∉ seen := fun hs => hnot (List.mem_cons.mpr (Or.inr hs))
        have hne : _domain h.url ≠ _domain (mkCurated query a).url :=
          fun he => hnot (List.mem_cons.mpr (Or.inl he))
        refine ⟨a :: pre, h, post, by rw [heq, List.cons_append], hceq, hnot2, ?_⟩
        intro h' hh'
        rcases List.mem_cons.mp hh' with rfl | hh'
        · exact fun habs => hne habs.symm
        · exact hpre h' hh'

/-- On a list whose domains are already pairwise distinct and unseen, the
deduplication loop keeps everything. -/
theorem dedupByDomain_eq_self :
    ∀ (l : List CuratedSource) (seen : List PyStr),
      (l.map (fun c => _domain c.url)).Nodup →
      (∀ c ∈ l, _domain c.url ∉ seen) →
      dedupByDomain l seen = l := by
  intro l
  induction l with
  | nil =>
    intro seen _ _
    rfl
  | cons a rest ih =>
    intro seen hnd hseen
    simp only [List.map_cons, List.nodup_cons] at hnd
    simp only [dedupByDomain]
    rw [if_neg (hseen a (List.mem_cons_self _ _))]
    congr 1
    apply ih
    · exact hnd.2
    · intro c hc hmem
      rcases List.mem_cons.mp hmem with heq | hmem'
      · exact hnd.1 (heq ▸ List.mem_map.mpr ⟨c, hc, rfl⟩)
      · exact hseen c (List.mem_cons.mpr (Or.inr hc)) hmem'

/-- Filtering by a predicate satisfied by the inserted element commutes with
ordered insertion, because every element passed over by the insertion is
strictly greater. -/
theorem filter_orderedInsert_of_pos (p : CuratedSource → Bool) (a : CuratedSource)
    (hpa : p a = true) (hgt : ∀ b, p b = true → scoreGE a b) :
    ∀ l : List CuratedSource,
      (l.orderedInsert scoreGE a).filter p = a :: l.filter p := by
  intro l
  induction l with
  | nil =>
    simp [List.orderedInsert, hpa]
  | cons b l ih =>
    simp only [List.orderedInsert]
    by_cases hab : scoreGE a b
    · rw [if_pos hab]
      simp [List.filter_cons, hpa]
    · rw [if_neg hab]
      have hpb : p b = false := by
        cases hpbv : p b
        · rfl
        · exact absurd (hgt b hpbv) hab
      simp [List.filter_cons, hpb, ih]

/-- Filtering by a predicate the inserted element fails ignores the
insertion. -/
theorem filter_orderedInsert_of_neg (p : CuratedSource → Bool) (a : CuratedSource)
    (hpa : p a = false) :
    ∀ l : List CuratedSource,
      (l.orderedInsert scoreGE a).filter p = l.filter p := by
  intro l
  induction l with
  | nil =>
    simp [List.orderedInsert, hpa]
  | cons b l ih =>
    simp only [List.orderedInsert]
    by_cases hab : scoreGE a b
    · rw [if_pos hab]
      simp [List.filter_cons, hpa]
    · rw [if_neg hab]
      simp [List.filter_cons, ih]

/-- Stability of the sort: filtering an insertion-sorted list by a predicate
whose members are mutually tied returns exactly the filter of the unsorted
list, in its original order. -/
theorem filter_insertionSort (p : CuratedSource → Bool)
    (hp : ∀ a b, p a = true → p b = true → scoreGE a b) :
    ∀ l : List CuratedSource,
      (List.insertionSort scoreGE l).filter p = l.filter p := by
  intro l
  induction l with
  | nil => rfl
  | cons a l ih =>
    simp only [List.insertionSort]
    by_cases hpa : p a = true
    · rw [filter_orderedInsert_of_pos p a hpa (fun b hb => hp a b hpa hb), ih]
      simp [List.filter_cons, hpa]
    · have hpa' : p a = false := by
        cases hpav : p a
        · rfl
        · exact absurd hpav hpa
      rw [filter_orderedInsert_of_neg p a hpa', ih]
      simp [List.filter_cons, hpa']

/-- The deduplicated list is no longer than the number of distinct domains
in its input. -/
theorem dedupByDomain_length_le (l : List CuratedSource) :
    (dedupByDomain l []).length ≤ ((l.map (fun c => _domain c.url)).dedup).length := by
  have h1 := (dedupByDomain_domains_nodup l []).1
  have hsub : (dedupByDomain l []).map (fun c => _domain c.url) ⊆
      (l.map (fun c => _domain c.url)).dedup := by
    intro d hd
    rw [List.mem_dedup]
    obtain ⟨c, hc, rfl⟩ := List.mem_map.mp hd
    exact List.mem_map.mpr ⟨c, dedupByDomain_subset l [] hc, rfl⟩
  have hlen := (List.subperm_of_subset h1 hsub).length_le
  simpa using hlen

/-- Claim C5: curation keeps at most one hit per domain — the first
occurrence in provider order — sorts stably by score descending, truncates
to `top_n`, and consequently its output length is bounded by `top_n` and by
the number of distinct domains in the input. -/
theorem C5_curator_postcondition (query : PyStr) (raw : List Hit) (top_n : Nat) :
    (curate_sources query raw top_n).length ≤ top_n ∧
    (curate_sources query raw top_n).length ≤
      ((raw.map (fun h => _domain h.url)).dedup).length ∧
    List.Sorted scoreGE (curate_sources query raw top_n) ∧
    (∀ c ∈ curate_sources query raw top_n, ∃ pre h post,
      raw = pre ++ h :: post ∧ c = mkCurated query h ∧
      ∀ h' ∈ pre, _domain h'.url ≠ _domain h.url) ∧
    (∀ sc : ℚ, (curate_sources query raw top_n).filter (fun c => decide (c.score = sc)) <+:
      (dedupByDomain (raw.map (mkCurated query)) []).filter
        (fun c => decide (c.score = sc))) := by
  have hmm : (raw.map (mkCurated query)).map (fun c => _domain c.url) =
      raw.map (fun h => _domain h.url) := by
    rw [List.map_map]
    rfl
  refine ⟨List.length_take_le _ _, ?_, ?_, ?_, ?_⟩
  · have h1 : (curate_sources query raw top_n).length ≤
        (List.insertionSort scoreGE (dedupByDomain (raw.map (mkCurated query)) [])).length := by
      rw [curate_sources, List.length_take]
      exact min_le_right _ _
    rw [List.length_insertionSort] at h1
    refine h1.trans ?_
    have := dedupByDomain_length_le (raw.map (mkCurated query))
    rwa [hmm] at this
  · exact List.Pairwise.sublist (List.take_sublist _ _)
      (List.sorted_insertionSort scoreGE _)
  · intro c hc
    have hc1 : c ∈ List.insertionSort scoreGE (dedupByDomain (raw.map (mkCurated query)) []) :=
      List.take_subset _ _ hc
    have hc2 : c ∈ dedupByDomain (raw.map (mkCurated query)) [] :=
      (List.mem_insertionSort _).mp hc1
    obtain ⟨pre, h, post, heq, hceq, _, hpre⟩ := mem_dedupByDomain_split query raw [] c hc2
    exact ⟨pre, h, post, heq, hceq, hpre⟩
  · intro sc
    have hp : ∀ a b : CuratedSource, decide (a.score = sc) = true →
        decide (b.score = sc) = true → scoreGE a b := by
      intro a b ha hb
      have ha' := of_decide_eq_true ha
      have hb' := of_decide_eq_true hb
      show b.score ≤ a.score
      rw [ha', hb']
    have hfil := filter_insertionSort (fun c => decide (c.score = sc)) hp
      (dedupByDomain (raw.map (mkCurated query)) [])
    refine ⟨((List.insertionSort scoreGE
      (dedupByDomain (raw.map (mkCurated query)) [])).drop top_n).filter
        (fun c => decide (c.score = sc)), ?_⟩
    rw [← hfil, curate_sources, ← List.filter_append, List.take_append_drop]

/-- Witness for C5 at a concrete query and hit list. -/
theorem C5_curator_postcondition_witness :
    (curate_sources "alpha".data witnessHits 2).length ≤ 2 ∧
    (curate_sources "alpha".data witnessHits 2).length ≤
      ((witnessHits.map (fun h => _domain h.url)).dedup).length ∧
    List.Sorted scoreGE (curate_sources "alpha".data witnessHits 2) ∧
    (∀ c ∈ curate_sources "alpha".data witnessHits 2, ∃ pre h post,
      witnessHits = pre ++ h :: post ∧ c = mkCurated "alpha".data h ∧
      ∀ h' ∈ pre, _domain h'.url ≠ _domain h.url) ∧
    (∀ sc : ℚ, (curate_sources "alpha".data witnessHits 2).filter
        (fun c => decide (c.score = sc)) <+:
      (dedupByDomain (witnessHits.map (mkCurated "alpha".data)) []).filter
        (fun c => decide (c.score = sc))) :=
  C5_curator_postcondition "alpha".data witnessHits 2

/-- Claim C6: re-curating an output of curation (with the same query, and a
cap at least its length) returns it unchanged. -/
theorem C6_curator_idempotent (query : PyStr) (raw : List Hit) (n n' : Nat)
    (hn' : (curate_sources query raw n).length ≤ n') :
    curate_sources query ((curate_sources query raw n).map toHit) n' =
      curate_sources query raw n := by
  have hsubD : curate_sources query raw n ⊆
      dedupByDomain (raw.map (mkCurated query)) [] := by
    intro c hc
    exact (List.mem_insertionSort _).mp (List.take_subset _ _ hc)
  have hfix : ∀ c ∈ curate_sources query raw n, mkCurated query (toHit c) = c := by
    intro c hc
    obtain ⟨pre, h, post, _, hceq, _, _⟩ :=
      mem_dedupByDomain_split query raw [] c (hsubD hc)
    rw [hceq]
    rfl
  have hmap : ((curate_sources query raw n).map toHit).map (mkCurated query) =
      curate_sources query raw n := by
    rw [List.map_map]
    have hcg : ∀ c ∈ curate_sources query raw n, (mkCurated query ∘ toHit) c = id c :=
      fun c hc => hfix c hc
    rw [List.map_congr_left hcg, List.map_id]
  have hkeysD : ((dedupByDomain (raw.map (mkCurated query)) []).map
      (fun c => _domain c.url)).Nodup := (dedupByDomain_domains_nodup _ []).1
  have hkeysSort : ((List.insertionSort scoreGE
      (dedupByDomain (raw.map (mkCurated query)) [])).map (fun c => _domain c.url)).Nodup := by
    have hperm := (List.perm_insertionSort scoreGE
      (dedupByDomain (raw.map (mkCurated query)) [])).map (fun c => _domain c.url)
    exact hperm.nodup_iff.mpr hkeysD
  have hkeysOut : ((curate_sources query raw n).map (fun c => _domain c.url)).Nodup := by
    have hsl := (List.take_sublist n (List.insertionSort scoreGE
      (dedupByDomain (raw.map (mkCurated query)) []))).map (fun c => _domain c.url)
    exact hkeysSort.sublist hsl
  have hsorted : List.Sorted scoreGE (curate_sources query raw n) :=
    List.Pairwise.sublist (List.take_sublist _ _) (List.sorted_insertionSort scoreGE _)
  show List.take n' (List.insertionSort scoreGE
      (dedupByDomain (((curate_sources query raw n).map toHit).map (mkCurated query)) [])) =
    curate_sources query raw n
  rw [hmap,
    dedupByDomain_eq_self (curate_sources query raw n) [] hkeysOut
      (fun c _ => List.not_mem_nil _),
    hsorted.insertionSort_eq]
  exact List.take_of_length_le hn'

unseal Rat.add in
/-- Witness for C6 at a concrete query, hit list and caps. -/
theorem C6_curator_idempotent_witness :
    curate_sources "alpha".data ((curate_sources "alpha".data witnessHits 2).map toHit) 3 =
      curate_sources "alpha".data witnessHits 2 :=
  C6_curator_idempotent "alpha".data witnessHits 2 3 (by decide)

/-- Witness for C4 at the claim's own example URL. -/
theorem C4_domain_normalization_witness :
    _domain ("https".data ++ ':' :: '/' :: '/' :: ("www.EXAMPLE.com".data ++ '/' :: "x".data)) =
      pyReplaceWWW (pyLower "www.EXAMPLE.com".data) ∧
    _domain "https://www.EXAMPLE.com/x".data = _domain "http://example.com/y".data :=
  C4_domain_normalization "https".data "www.EXAMPLE.com".data "x".data (by decide) (by decide)

end Scholar
